import Mathlib

/-!
Verification of the `MoreLikeThis` similarity-query generator
(`src/contrib/queries/search/similar/MoreLikeThis.cpp` and its header).

The development shallowly embeds the term-frequency accumulator, the
noise filter, the term scorer / top-K selector, the query builder and the
interesting-terms reporter.  Machine `int32_t` values are modelled as
`Int`, C++ `double` scores as `ℚ` (the claims under study are about
ordering and exact arithmetic identities, not rounding), `std::wstring`
as `String` compared by its character list, and the fallible operations
(`boost::throw_exception`, `TooManyClauses`) as `Except` values.

Collaborators that live outside the two source files (the index reader,
the analyzer, the similarity function, `PriorityQueue`, `BooleanQuery`,
`Term::compareTo`) are modelled from the spec, as indicated on each
definition.
-/

namespace Mlt

/-- A term identity: a `(field, text)` pair (`Term.h` collaborator;
spec §3 "ScoredTerm" / glossary "Term"). -/
structure Term where
  field : String
  text : String
deriving DecidableEq, Repr

/-- Modelled from the spec: lexicographic three-way comparison of two
character sequences, the behaviour of `std::wstring::compare` used by the
external `Term::compareTo` collaborator ("field+text lexical order"). -/
def cmpChars : List Char → List Char → Int
  | [], [] => 0
  | [], _ :: _ => -1
  | _ :: _, [] => 1
  | a :: as, b :: bs => if a < b then -1 else if b < a then 1 else cmpChars as bs

/-- Three-way comparison of two strings via their character lists. -/
def cmpStr (a b : String) : Int := cmpChars a.data b.data

/-- Modelled from the spec: the external `Term::compareTo` collaborator
(not under `src/`): compare the field names; when equal, compare the term
texts ("a total order on term identity (field, then text)"). -/
def Term.compareTo (a b : Term) : Int :=
  if a.field = b.field then cmpStr a.text b.text else cmpStr a.field b.field

/-- `MoreLikeThis::TermScore` (header lines 527-538): a term plus its
floating-point score, modelled over `ℚ`. -/
structure TermScore where
  term : Term
  score : ℚ
deriving DecidableEq, Repr

/-- `MoreLikeThis::TermScore::compareTo` (`MoreLikeThis.cpp` lines
476-491), with `this = a` and `other = b`.  Note the reversed term
comparison (`tsp->term->compareTo(this->term)`) in the equal-score case. -/
def TermScore.compareTo (a b : TermScore) : Int :=
  if a.score = b.score then Term.compareTo b.term a.term
  else if a.score < b.score then -1 else 1

/-- `MoreLikeThis::TermScoreQueue::lessThan` (`MoreLikeThis.cpp` lines
498-501): `first->compareTo(second) < 0`. -/
def TermScoreQueue.lessThan (first second : TermScore) : Bool :=
  TermScore.compareTo first second < 0

/-- The non-strict order induced by `TermScore.compareTo`; the priority
structure keeps its entries sorted ascending with respect to it. -/
def tsLe (a b : TermScore) : Prop := TermScore.compareTo a b ≤ 0

instance : DecidableRel tsLe :=
  fun a b => inferInstanceAs (Decidable (TermScore.compareTo a b ≤ 0))

/-- Modelled from the spec: insertion into the bounded priority structure
(`PriorityQueue::add`, not under `src/`).  The structure is represented as
a list sorted ascending under `tsLe`, so that "the minimum-scoring
retained entry is efficiently discoverable" at the head (spec §3). -/
def pqInsert (st : TermScore) (q : List TermScore) : List TermScore :=
  q.orderedInsert tsLe st

/-- Modelled from the spec: draining the Top-K Set "in descending-score
order (highest score first) by repeated remove-the-current-best
operations" (spec §4.3); on the ascending representation this is the
reversed list. -/
def drain (q : List TermScore) : List TermScore := q.reverse

/-- The configuration parameter bag of `MoreLikeThis` (header lines
187-256): thresholds, word-length bounds, boost parameters, field names,
stop words and the optional analyzer.  The analyzer collaborator is a
function from field name and text to the produced token sequence. -/
structure Config where
  stopWords : List String
  analyzer : Option (String → String → List String)
  minTermFreq : Int
  minDocFreq : Int
  maxDocFreq : Int
  hasBoost : Bool
  fieldNames : List String
  maxNumTokensParsed : Int
  minWordLen : Int
  maxWordLen : Int
  maxQueryTerms : Int
  boostFactor : ℚ

/-- The constructor defaults (`MoreLikeThis.cpp` lines 34-58);
`DEFAULT_MAX_DOC_FREQ` is `std::numeric_limits<int32_t>::max()`. -/
def defaultConfig : Config where
  stopWords := []
  analyzer := none
  minTermFreq := 2
  minDocFreq := 5
  maxDocFreq := 2147483647
  hasBoost := false
  fieldNames := []
  maxNumTokensParsed := 5000
  minWordLen := 0
  maxWordLen := 0
  maxQueryTerms := 25
  boostFactor := 1

/-- The external index-reader and similarity collaborators used by the
selector: corpus size, per-term corpus document frequency and the idf
function (spec §6 contracts (d), (e), (f)). -/
structure Index where
  numDocs : Int
  docFreq : Term → Int
  idf : Int → Int → ℚ

/-- `MoreLikeThis::isNoiseWord` (`MoreLikeThis.cpp` lines 387-399). -/
def isNoiseWord (cfg : Config) (term : String) : Bool :=
  let len : Int := term.length
  if cfg.minWordLen > 0 ∧ len < cfg.minWordLen then true
  else if cfg.maxWordLen > 0 ∧ len > cfg.maxWordLen then true
  else cfg.stopWords.contains term

/-- A per-field term-frequency map (`HashMap<String, int32_t>`) as an
association list. -/
abbrev TermFreqMap := List (String × Int)

/-- The per-field frequency table
(`HashMap<String, HashMap<String, int32_t>>`) as an association list. -/
abbrev FreqTable := List (String × TermFreqMap)

/-- The exceptions thrown and caught in the translation unit:
`UnsupportedOperationException` (line 344) and `TooManyClausesException`
(line 131). -/
inductive LuceneException where
  | unsupportedOperation (msg : String)
  | tooManyClauses
deriving DecidableEq, Repr

/-- The message thrown at `MoreLikeThis.cpp` line 344. -/
def analyzerRequiredMsg : String :=
  "To use MoreLikeThis without term vectors, you must provide an Analyzer"

/-- The frequency increment of the token loop (`MoreLikeThis.cpp` lines
372-376): a missing key is first bound to `0`, then incremented. -/
def bumpTerm (m : TermFreqMap) (t : String) : TermFreqMap :=
  if m.any (fun p => p.1 = t) then
    m.map (fun p => if p.1 = t then (p.1, p.2 + 1) else p)
  else m ++ [(t, 1)]

/-- The per-stream token loop of the token-mode accumulator
(`MoreLikeThis.cpp` lines 354-377): the token counter is incremented for
every produced token, the loop breaks once it exceeds
`maxNumTokensParsed`, noise words are skipped, and surviving tokens are
counted. -/
def tokenLoop (cfg : Config) : List String → Int → TermFreqMap → TermFreqMap
  | [], _, m => m
  | tok :: rest, tokenCount, m =>
    let tokenCount := tokenCount + 1
    if tokenCount > cfg.maxNumTokensParsed then m
    else if isNoiseWord cfg tok then tokenLoop cfg rest tokenCount m
    else tokenLoop cfg rest tokenCount (bumpTerm m tok)

/-- Token-mode `MoreLikeThis::addTermFrequencies` (`MoreLikeThis.cpp`
lines 338-379): throws `UnsupportedOperationException` when no analyzer
is configured, otherwise ensures the field's map exists and runs the
token loop over the analyzer's token stream for the text source. -/
def addTermFrequenciesText (cfg : Config) (text : String) (table : FreqTable)
    (fieldName : String) : Except LuceneException FreqTable :=
  match cfg.analyzer with
  | none => .error (.unsupportedOperation analyzerRequiredMsg)
  | some analyzer =>
    let table :=
      if table.any (fun p => p.1 = fieldName) then table
      else table ++ [(fieldName, [])]
    let tokens := analyzer fieldName text
    .ok (table.map (fun p =>
      if p.1 = fieldName then (p.1, tokenLoop cfg tokens 0 p.2) else p))

/-- `MoreLikeThis::retrieveTerms(fieldName, readers)` up to the frequency
table (`MoreLikeThis.cpp` lines 281-290): token-mode accumulation of each
text source in turn into one shared table. -/
def retrieveTermsText (cfg : Config) (fieldName : String)
    (readers : List String) : Except LuceneException FreqTable :=
  readers.foldlM (fun table r => addTermFrequenciesText cfg r table fieldName) []

/-- `MoreLikeThis::getTermsCount` (`MoreLikeThis.cpp` lines 210-219):
total number of entries of the inner maps. -/
def getTermsCount (table : FreqTable) : Int :=
  table.foldl (fun acc p => acc + (p.2.length : Int)) 0

/-- The per-candidate body of the selector loop (`MoreLikeThis.cpp` lines
158-204): threshold filters, scoring by `tf * idf(docFreq, numDocs)`, and
bounded insertion (direct insertion below capacity, otherwise replacement
of the current minimum entry when the candidate's score is strictly
greater). -/
def processCandidate (cfg : Config) (idx : Index) (limit : Int)
    (q : List TermScore) (fieldName word : String) (tf : Int) : List TermScore :=
  if cfg.minTermFreq > 0 ∧ tf < cfg.minTermFreq then q
  else
    let term : Term := ⟨fieldName, word⟩
    let docFreq := idx.docFreq term
    if cfg.minDocFreq > 0 ∧ docFreq < cfg.minDocFreq then q
    else if docFreq > cfg.maxDocFreq then q
    else if docFreq = 0 then q
    else
      let idf := idx.idf docFreq idx.numDocs
      let score : ℚ := tf * idf
      if (q.length : Int) < limit then pqInsert ⟨term, score⟩ q
      else
        match q with
        | [] => []
        | top :: rest => if top.score < score then pqInsert ⟨term, score⟩ rest
                         else top :: rest

/-- The inner loop of `MoreLikeThis::createQueue` over one field's words
(`MoreLikeThis.cpp` lines 156-205). -/
def processWords (cfg : Config) (idx : Index) (limit : Int) (fieldName : String)
    (q : List TermScore) (words : TermFreqMap) : List TermScore :=
  words.foldl (fun q wt => processCandidate cfg idx limit q fieldName wt.1 wt.2) q

/-- The outer loop of `MoreLikeThis::createQueue` over the fields
(`MoreLikeThis.cpp` lines 150-206). -/
def processTable (cfg : Config) (idx : Index) (limit : Int)
    (q : List TermScore) (table : FreqTable) : List TermScore :=
  table.foldl (fun q p => processWords cfg idx limit p.1 q p.2) q

/-- `MoreLikeThis::createQueue` (`MoreLikeThis.cpp` lines 144-208): the
queue capacity is `min(maxQueryTerms, getTermsCount(table))` and the
whole table is processed starting from an empty queue. -/
def createQueue (cfg : Config) (idx : Index) (table : FreqTable) : List TermScore :=
  processTable cfg idx (min cfg.maxQueryTerms (getTermsCount table)) [] table

/-- One `SHOULD` clause of the produced `BooleanQuery`: a `TermQuery`
plus its boost (`Query::setBoost`; default boost `1`). -/
structure BooleanClause where
  term : Term
  boost : ℚ
deriving DecidableEq, Repr

/-- Modelled from the spec: `BooleanQuery::add` (not under `src/`) "may
fail with a `TooManyClauses` condition if the disjunction has reached an
externally imposed maximum clause count" (spec §4.4); `cap` is that
external cap. -/
def booleanQueryAdd (cap : Nat) (clauses : List BooleanClause)
    (c : BooleanClause) : Except LuceneException (List BooleanClause) :=
  if cap ≤ clauses.length then .error .tooManyClauses else .ok (clauses ++ [c])

/-- The loop of `MoreLikeThis::createQuery` (`MoreLikeThis.cpp` lines
113-134) over the drained term sequence: the `bestScore == -1` sentinel
establishes the first drained score when boosting, each clause's boost is
`boostFactor * myScore / bestScore`, and a `TooManyClausesException` from
`add` is caught and ignored. -/
def createQueryLoop (cfg : Config) (cap : Nat) :
    List TermScore → List BooleanClause → ℚ → List BooleanClause
  | [], query, _ => query
  | st :: rest, query, bestScore =>
    let bestScore := if cfg.hasBoost ∧ bestScore = -1 then st.score else bestScore
    let boost : ℚ := if cfg.hasBoost then cfg.boostFactor * st.score / bestScore else 1
    let query :=
      match booleanQueryAdd cap query ⟨st.term, boost⟩ with
      | .ok q2 => q2
      | .error _ => query
    createQueryLoop cfg cap rest query bestScore

/-- `MoreLikeThis::createQuery` (`MoreLikeThis.cpp` lines 107-136):
drain the queue best-first and build the disjunction, starting from an
empty `BooleanQuery` and the `-1` sentinel. -/
def createQuery (cfg : Config) (cap : Nat) (q : List TermScore) : List BooleanClause :=
  createQueryLoop cfg cap (drain q) [] (-1)

/-- The uncapped clause construction over a drained sequence, threading
the same `bestScore` state as `createQueryLoop`; used to state that a
capped run keeps exactly the first `cap` clauses. -/
def buildAll (cfg : Config) : List TermScore → ℚ → List BooleanClause
  | [], _ => []
  | st :: rest, bestScore =>
    let bestScore := if cfg.hasBoost ∧ bestScore = -1 then st.score else bestScore
    let boost : ℚ := if cfg.hasBoost then cfg.boostFactor * st.score / bestScore else 1
    ⟨st.term, boost⟩ :: buildAll cfg rest bestScore

/-- The loop of `MoreLikeThis::retrieveInterestingTerms` over a drained
queue (`MoreLikeThis.cpp` lines 462-474): `while ((scoreTerm = pq->pop())
&& lim-- > 0)` collects the term texts of at most `maxQueryTerms` popped
entries. -/
def interestingLoop : Int → List TermScore → List String
  | _, [] => []
  | lim, st :: rest => if 0 < lim then st.term.text :: interestingLoop (lim - 1) rest
                       else []

/-- `MoreLikeThis::retrieveInterestingTerms(pq)` (`MoreLikeThis.cpp`
lines 462-474). -/
def retrieveInterestingTerms (cfg : Config) (q : List TermScore) : List String :=
  interestingLoop cfg.maxQueryTerms (drain q)

/-- The field-name resolution step at the start of
`MoreLikeThis::like(docNum)` (`MoreLikeThis.cpp` lines 83-92): when the
configured field-name set is empty, the member `fieldNames` is assigned
the indexed field names gathered from the reader. -/
def likeResolveFields (cfg : Config) (indexedFieldNames : List String) : Config :=
  if cfg.fieldNames.isEmpty then { cfg with fieldNames := indexedFieldNames }
  else cfg

/-- All `(field, term)` pairs listed by a frequency table. -/
def tablePairs (table : FreqTable) : List (String × String) :=
  table.flatMap (fun p => p.2.map (fun q => (p.1, q.1)))

/-- Well-formedness of a frequency table as a hash-map image: outer keys
and each inner map's keys are pairwise distinct. -/
def tableWF (table : FreqTable) : Prop :=
  (table.map Prod.fst).Nodup ∧ ∀ p ∈ table, (p.2.map Prod.fst).Nodup

/-- Provenance of a selected entry: it arises from some `(field, word,
tf)` triple of the table that passed every threshold filter of
`createQueue`, and its score is `tf * idf(docFreq, numDocs)`. -/
def candidateOK (cfg : Config) (idx : Index) (table : FreqTable)
    (st : TermScore) : Prop :=
  ∃ fld ws w tf, (fld, ws) ∈ table ∧ (w, tf) ∈ ws ∧
    st.term = ⟨fld, w⟩ ∧
    ¬(cfg.minTermFreq > 0 ∧ tf < cfg.minTermFreq) ∧
    ¬(cfg.minDocFreq > 0 ∧ idx.docFreq ⟨fld, w⟩ < cfg.minDocFreq) ∧
    ¬(idx.docFreq ⟨fld, w⟩ > cfg.maxDocFreq) ∧
    idx.docFreq ⟨fld, w⟩ ≠ 0 ∧
    st.score = (tf : ℚ) * idx.idf (idx.docFreq ⟨fld, w⟩) idx.numDocs

/-- Total term frequency recorded in one per-field map. -/
def sumTf (m : TermFreqMap) : Int := m.foldl (fun acc p => acc + p.2) 0

/-! ### Concrete fixtures used to exercise the theorems -/

/-- A small index: ten documents, every term in exactly one of them, and
a constant idf of `1`. -/
def idxW : Index where
  numDocs := 10
  docFreq := fun _ => 1
  idf := fun _ _ => 1

/-- Boosting configuration with permissive thresholds. -/
def cfg2w : Config :=
  { defaultConfig with hasBoost := true, minTermFreq := 1, minDocFreq := 1 }

/-- A two-term single-field frequency table. -/
def table2w : FreqTable := [("f", [("a", 2), ("b", 1)])]

/-- Permissive-threshold configuration (no frequency filtering). -/
def cfg3w : Config := { defaultConfig with minTermFreq := 0, minDocFreq := 0 }

/-- Permissive-threshold configuration retaining a single query term. -/
def cfg3c : Config := { cfg3w with maxQueryTerms := 1 }

/-- Two equal-score candidates inserted `b` first. -/
def tableBA : FreqTable := [("f", [("b", 1), ("a", 1)])]

/-- The same two equal-score candidates inserted `a` first. -/
def tableAB : FreqTable := [("f", [("a", 1), ("b", 1)])]

/-- Token-mode configuration: an analyzer producing two `a` tokens for
any text, and a one-token parsing budget. -/
def cfg6w : Config :=
  { defaultConfig with analyzer := some (fun _ _ => ["a", "a"]),
                       maxNumTokensParsed := 1 }

/-- Configuration with a configured field-name set. -/
def cfg9w : Config := { defaultConfig with fieldNames := ["title"] }

/-! ### Order facts about the comparison functions -/

theorem cmpChars_swap (a b : List Char) : cmpChars b a = -cmpChars a b := by
  induction a generalizing b with
  | nil => cases b <;> simp [cmpChars]
  | cons x xs ih =>
    cases b with
    | nil => simp [cmpChars]
    | cons y ys =>
      rcases lt_trichotomy x y with h | h | h
      · simp [cmpChars, h, asymm h]
      · subst h
        simp [cmpChars, lt_irrefl, ih]
      · simp [cmpChars, h, asymm h]

theorem cmpChars_eq_zero_iff (a b : List Char) : cmpChars a b = 0 ↔ a = b := by
  induction a generalizing b with
  | nil => cases b <;> simp [cmpChars]
  | cons x xs ih =>
    cases b with
    | nil => simp [cmpChars]
    | cons y ys =>
      rcases lt_trichotomy x y with h | h | h
      · simp [cmpChars, h, ne_of_lt h]
      · subst h
        simp [cmpChars, lt_irrefl, ih]
      · simp [cmpChars, h, asymm h, (ne_of_lt h).symm]

theorem cmpChars_le_trans {a b c : List Char}
    (h1 : cmpChars a b ≤ 0) (h2 : cmpChars b c ≤ 0) : cmpChars a c ≤ 0 := by
  induction a generalizing b c with
  | nil => cases c <;> simp [cmpChars]
  | cons x xs ih =>
    cases b with
    | nil => simp [cmpChars] at h1
    | cons y ys =>
      cases c with
      | nil => simp [cmpChars] at h2
      | cons z zs =>
        simp only [cmpChars] at h1 h2 ⊢
        rcases lt_trichotomy x y with hxy | hxy | hxy
        · rcases lt_trichotomy y z with hyz | hyz | hyz
          · have hxz : x < z := lt_trans hxy hyz
            simp [hxz]
          · subst hyz
            simp [hxy]
          · rw [if_neg (asymm hyz), if_pos hyz] at h2
            omega
        · subst hxy
          rw [if_neg (lt_irrefl x), if_neg (lt_irrefl x)] at h1
          rcases lt_trichotomy x z with hxz | hxz | hxz
          · simp [hxz]
          · subst hxz
            rw [if_neg (lt_irrefl x), if_neg (lt_irrefl x)] at h2 ⊢
            exact ih h1 h2
          · rw [if_neg (asymm hxz), if_pos hxz] at h2
            omega
        · rw [if_neg (asymm hxy), if_pos hxy] at h1
          omega

theorem cmpChars_lt_trans {a b c : List Char}
    (h1 : cmpChars a b < 0) (h2 : cmpChars b c < 0) : cmpChars a c < 0 := by
  have hle : cmpChars a c ≤ 0 := cmpChars_le_trans (le_of_lt h1) (le_of_lt h2)
  rcases lt_or_eq_of_le hle with h | h
  · exact h
  · exfalso
    have hac : a = c := (cmpChars_eq_zero_iff a c).mp h
    subst hac
    have := cmpChars_swap a b
    omega

theorem cmpStr_swap (a b : String) : cmpStr b a = -cmpStr a b := cmpChars_swap _ _

theorem cmpStr_eq_zero_iff (a b : String) : cmpStr a b = 0 ↔ a = b := by
  unfold cmpStr
  rw [cmpChars_eq_zero_iff]
  constructor
  · intro h
    cases a; cases b
    exact congrArg String.mk h
  · intro h
    rw [h]

theorem cmpStr_le_trans {a b c : String}
    (h1 : cmpStr a b ≤ 0) (h2 : cmpStr b c ≤ 0) : cmpStr a c ≤ 0 :=
  cmpChars_le_trans h1 h2

theorem cmpStr_lt_trans {a b c : String}
    (h1 : cmpStr a b < 0) (h2 : cmpStr b c < 0) : cmpStr a c < 0 :=
  cmpChars_lt_trans h1 h2

theorem Term.compareTo_swap (a b : Term) : Term.compareTo b a = -Term.compareTo a b := by
  unfold Term.compareTo
  by_cases h : a.field = b.field
  · rw [if_pos h, if_pos h.symm, cmpStr_swap]
  · rw [if_neg h, if_neg (fun hh => h hh.symm), cmpStr_swap]

theorem Term.compareTo_le_trans {a b c : Term}
    (h1 : Term.compareTo a b ≤ 0) (h2 : Term.compareTo b c ≤ 0) :
    Term.compareTo a c ≤ 0 := by
  unfold Term.compareTo at h1 h2 ⊢
  by_cases hab : a.field = b.field
  · by_cases hbc : b.field = c.field
    · rw [if_pos hab] at h1
      rw [if_pos hbc] at h2
      rw [if_pos (hab.trans hbc)]
      exact cmpStr_le_trans h1 h2
    · rw [if_neg hbc] at h2
      rw [if_neg (fun h => hbc (hab ▸ h)), hab]
      exact h2
  · by_cases hbc : b.field = c.field
    · rw [if_neg hab] at h1
      rw [if_neg (fun h => hab (h.trans hbc.symm)), ← hbc]
      exact h1
    · rw [if_neg hab] at h1
      rw [if_neg hbc] at h2
      have hab' : cmpStr a.field b.field < 0 :=
        lt_of_le_of_ne h1 (fun h => hab ((cmpStr_eq_zero_iff _ _).mp h))
      have hbc' : cmpStr b.field c.field < 0 :=
        lt_of_le_of_ne h2 (fun h => hbc ((cmpStr_eq_zero_iff _ _).mp h))
      have hac := cmpStr_lt_trans hab' hbc'
      have hne : a.field ≠ c.field := by
        intro h
        rw [h] at hac
        have h0 : cmpStr c.field c.field = 0 := (cmpStr_eq_zero_iff _ _).mpr rfl
        omega
      rw [if_neg hne]
      exact le_of_lt hac

theorem tsLe_iff (a b : TermScore) :
    tsLe a b ↔ a.score < b.score ∨
      (a.score = b.score ∧ Term.compareTo b.term a.term ≤ 0) := by
  unfold tsLe TermScore.compareTo
  by_cases hs : a.score = b.score
  · simp [hs]
  · rcases lt_or_gt_of_ne hs with h | h
    · simp [hs, h]
    · simp [hs, asymm h, h, not_lt_of_gt h]

instance : IsTotal TermScore tsLe := by
  constructor
  intro a b
  rw [tsLe_iff, tsLe_iff]
  rcases lt_trichotomy a.score b.score with h | h | h
  · exact Or.inl (Or.inl h)
  · have := Term.compareTo_swap a.term b.term
    rcases le_or_lt (Term.compareTo b.term a.term) 0 with ht | ht
    · exact Or.inl (Or.inr ⟨h, ht⟩)
    · exact Or.inr (Or.inr ⟨h.symm, by omega⟩)
  · exact Or.inr (Or.inl h)

instance : IsTrans TermScore tsLe := by
  constructor
  intro a b c hab hbc
  rw [tsLe_iff] at hab hbc ⊢
  rcases hab with h1 | ⟨h1, h1'⟩
  · rcases hbc with h2 | ⟨h2, _⟩
    · exact Or.inl (lt_trans h1 h2)
    · exact Or.inl (h2 ▸ h1)
  · rcases hbc with h2 | ⟨h2, h2'⟩
    · exact Or.inl (h1 ▸ h2)
    · exact Or.inr ⟨h1.trans h2, Term.compareTo_le_trans h2' h1'⟩

/-! ### Generic fold invariance -/

theorem foldl_induction {α β : Type} (I : α → Prop) (f : α → β → α) :
    ∀ (l : List β) (a : α), I a → (∀ x b, I x → b ∈ l → I (f x b)) →
      I (l.foldl f a)
  | [], _, ha, _ => ha
  | b :: l, a, ha, hstep =>
    foldl_induction I f l (f a b) (hstep a b ha (List.mem_cons_self b l))
      (fun x b' hx hb' => hstep x b' hx (List.mem_cons_of_mem _ hb'))

/-! ### Invariants of the bounded Top-K selector -/

theorem sorted_processCandidate (cfg : Config) (idx : Index) (limit : Int)
    (q : List TermScore) (fld w : String) (tf : Int)
    (h : List.Sorted tsLe q) :
    List.Sorted tsLe (processCandidate cfg idx limit q fld w tf) := by
  cases q with
  | nil =>
    simp only [processCandidate]
    split_ifs
    any_goals exact h
    exact h.orderedInsert _ _
  | cons top rest =>
    simp only [processCandidate]
    split_ifs
    any_goals exact h
    · exact h.orderedInsert _ _
    · exact (List.sorted_cons.mp h).2.orderedInsert _ _

theorem sorted_createQueue (cfg : Config) (idx : Index) (table : FreqTable) :
    List.Sorted tsLe (createQueue cfg idx table) := by
  unfold createQueue processTable
  apply foldl_induction (I := fun q => List.Sorted tsLe q)
  · exact List.sorted_nil
  · intro q p hq _
    unfold processWords
    apply foldl_induction (I := fun q => List.Sorted tsLe q)
    · exact hq
    · intro q' wt hq' _
      exact sorted_processCandidate cfg idx _ q' p.1 wt.1 wt.2 hq'

theorem mem_processCandidate {cfg : Config} {idx : Index} {limit : Int}
    {q : List TermScore} {fld w : String} {tf : Int} {st : TermScore}
    (h : st ∈ processCandidate cfg idx limit q fld w tf) :
    st ∈ q ∨
      (st = ⟨⟨fld, w⟩, (tf : ℚ) * idx.idf (idx.docFreq ⟨fld, w⟩) idx.numDocs⟩ ∧
        ¬(cfg.minTermFreq > 0 ∧ tf < cfg.minTermFreq) ∧
        ¬(cfg.minDocFreq > 0 ∧ idx.docFreq ⟨fld, w⟩ < cfg.minDocFreq) ∧
        ¬(idx.docFreq ⟨fld, w⟩ > cfg.maxDocFreq) ∧
        idx.docFreq ⟨fld, w⟩ ≠ 0) := by
  cases q with
  | nil =>
    simp only [processCandidate] at h
    split_ifs at h with h1 h2 h3 h4 h5
    any_goals (left ; exact h)
    simp only [pqInsert, List.mem_orderedInsert] at h
    rcases h with h | h
    · exact Or.inr ⟨h, h1, h2, h3, h4⟩
    · exact Or.inl h
  | cons top rest =>
    simp only [processCandidate] at h
    split_ifs at h with h1 h2 h3 h4 h5 h6
    any_goals (left ; exact h)
    · simp only [pqInsert, List.mem_orderedInsert] at h
      rcases h with h | h
      · exact Or.inr ⟨h, h1, h2, h3, h4⟩
      · exact Or.inl h
    · simp only [pqInsert, List.mem_orderedInsert] at h
      rcases h with h | h
      · exact Or.inr ⟨h, h1, h2, h3, h4⟩
      · exact Or.inl (List.mem_cons_of_mem _ h)

theorem createQueue_mem_candidateOK (cfg : Config) (idx : Index)
    (table : FreqTable) :
    ∀ st ∈ createQueue cfg idx table, candidateOK cfg idx table st := by
  unfold createQueue processTable
  apply foldl_induction (I := fun q => ∀ st ∈ q, candidateOK cfg idx table st)
  · intro st hst
    simp at hst
  · intro q p hq hp
    unfold processWords
    apply foldl_induction (I := fun q => ∀ st ∈ q, candidateOK cfg idx table st)
    · exact hq
    · intro q' wt hq' hwt st hst
      rcases mem_processCandidate hst with h | ⟨hst', f1, f2, f3, f4⟩
      · exact hq' st h
      · exact ⟨p.1, p.2, wt.1, wt.2, hp, hwt, by rw [hst'], f1, f2, f3, f4,
          by rw [hst']⟩

theorem length_processCandidate (cfg : Config) (idx : Index) (limit : Int)
    (q : List TermScore) (fld w : String) (tf : Int) :
    (processCandidate cfg idx limit q fld w tf).length ≤
      max q.length limit.toNat := by
  cases q with
  | nil =>
    simp only [processCandidate]
    split_ifs with h1 h2 h3 h4 h5
    any_goals exact le_max_left _ _
    simp only [pqInsert, List.orderedInsert_length]
    refine le_trans ?_ (le_max_right _ _)
    omega
  | cons top rest =>
    simp only [processCandidate]
    split_ifs with h1 h2 h3 h4 h5 h6
    any_goals exact le_max_left _ _
    · simp only [pqInsert, List.orderedInsert_length, List.length_cons]
      refine le_trans ?_ (le_max_right _ _)
      simp only [List.length_cons] at h5
      omega
    · simp only [pqInsert, List.orderedInsert_length, List.length_cons]
      exact le_max_left _ _

theorem length_createQueue (cfg : Config) (idx : Index) (table : FreqTable) :
    (createQueue cfg idx table).length ≤
      (min cfg.maxQueryTerms (getTermsCount table)).toNat := by
  unfold createQueue processTable
  refine foldl_induction
    (fun q : List TermScore =>
      q.length ≤ (min cfg.maxQueryTerms (getTermsCount table)).toNat)
    _ table [] ?_ ?_
  · simp
  intro q p hq _
  unfold processWords
  refine foldl_induction
    (fun q : List TermScore =>
      q.length ≤ (min cfg.maxQueryTerms (getTermsCount table)).toNat)
    _ p.2 q hq ?_
  intro q' wt hq' _
  have hb := length_processCandidate cfg idx
    (min cfg.maxQueryTerms (getTermsCount table)) q' p.1 wt.1 wt.2
  exact le_trans hb (max_le hq' le_rfl)

theorem interestingLoop_eq_take :
    ∀ (l : List TermScore) (lim : Int),
      interestingLoop lim l = (l.take lim.toNat).map (fun st => st.term.text)
  | [], lim => by simp [interestingLoop]
  | st :: rest, lim => by
    by_cases h : 0 < lim
    · have ht : lim.toNat = (lim - 1).toNat + 1 := by omega
      rw [interestingLoop, if_pos h, ht, List.take_succ_cons, List.map_cons,
        interestingLoop_eq_take rest (lim - 1)]
    · have ht : lim.toNat = 0 := by omega
      rw [interestingLoop, if_neg h, ht, List.take_zero, List.map_nil]

/-! ### The query builder loop -/

theorem createQueryLoop_eq_take (cfg : Config) (cap : Nat) :
    ∀ (l : List TermScore) (query : List BooleanClause) (b : ℚ),
      createQueryLoop cfg cap l query b =
        query ++ (buildAll cfg l b).take (cap - query.length)
  | [], query, b => by simp [createQueryLoop, buildAll]
  | st :: rest, query, b => by
    rw [createQueryLoop, buildAll]
    by_cases hlen : cap ≤ query.length
    · rw [booleanQueryAdd, if_pos hlen]
      have h0 : cap - query.length = 0 := by omega
      rw [h0, List.take_zero, List.append_nil,
        createQueryLoop_eq_take cfg cap rest query _, h0, List.take_zero,
        List.append_nil]
    · rw [booleanQueryAdd, if_neg hlen]
      have h1 : cap - query.length = (cap - (query.length + 1)) + 1 := by omega
      rw [h1, List.take_succ_cons,
        createQueryLoop_eq_take cfg cap rest (query ++ [_]) _]
      simp

theorem length_buildAll (cfg : Config) :
    ∀ (l : List TermScore) (b : ℚ), (buildAll cfg l b).length = l.length
  | [], _ => rfl
  | st :: rest, b => by
    rw [buildAll, List.length_cons, List.length_cons, length_buildAll cfg rest]

theorem createQuery_eq_take (cfg : Config) (cap : Nat) (q : List TermScore) :
    createQuery cfg cap q = (buildAll cfg (drain q) (-1)).take cap := by
  rw [createQuery, createQueryLoop_eq_take cfg cap (drain q) [] (-1)]
  simp

theorem buildAll_of_ne (cfg : Config) (hb : cfg.hasBoost = true) :
    ∀ (l : List TermScore) (b : ℚ), b ≠ -1 →
      buildAll cfg l b =
        l.map (fun st => ⟨st.term, cfg.boostFactor * st.score / b⟩)
  | [], _, _ => rfl
  | st :: rest, b, hne => by
    rw [buildAll, List.map_cons]
    have h1 : ¬(cfg.hasBoost = true ∧ b = -1) := fun h => hne h.2
    rw [if_neg h1, if_pos hb, buildAll_of_ne cfg hb rest b hne]

/-! ### Claim theorems -/

/-- **C1.** Draining the Top-K Set produced by the selector (as
`createQuery` and the interesting-terms reporter do) yields its entries
pairwise in non-increasing score order; entries of equal score appear in
ascending `(field, text)` order, so the drained order is a deterministic
function of the retained set, and the first entry drained has the highest
score of all retained entries (the pairwise relation ties every earlier
entry to every later one).  The reporter consumes exactly the first
`maxQueryTerms` entries of that same drained sequence. -/
theorem C1_drain_descending (cfg : Config) (idx : Index) (table : FreqTable) :
    List.Pairwise (fun a b => b.score < a.score ∨
        (b.score = a.score ∧ Term.compareTo a.term b.term ≤ 0))
      (drain (createQueue cfg idx table)) ∧
    retrieveInterestingTerms cfg (createQueue cfg idx table) =
      ((drain (createQueue cfg idx table)).take cfg.maxQueryTerms.toNat).map
        (fun st => st.term.text) := by
  constructor
  · have hs := sorted_createQueue cfg idx table
    rw [drain, List.pairwise_reverse]
    exact hs.imp (fun {a b} h => (tsLe_iff a b).mp h)
  · rw [retrieveInterestingTerms, interestingLoop_eq_take]

/-- **C8.** The query builder never propagates the `TooManyClauses`
condition: for every drained sequence it returns a query; a clause whose
addition fails is omitted while every already-added clause is kept and
building continues for the remaining terms, so the result is exactly the
first `cap` clauses of the uncapped build; and an empty drained sequence
yields a disjunction with zero clauses. -/
theorem C8_too_many_clauses (cfg : Config) (cap : Nat) (q : List TermScore) :
    createQuery cfg cap ([] : List TermScore) = [] ∧
    createQuery cfg cap q = (createQuery cfg (drain q).length q).take cap ∧
    (createQuery cfg cap q).length = min cap (drain q).length := by
  refine ⟨?_, ?_, ?_⟩
  · rw [createQuery_eq_take]
    simp [drain, buildAll]
  · rw [createQuery_eq_take, createQuery_eq_take,
      ← length_buildAll cfg (drain q) (-1), List.take_length]
  · rw [createQuery_eq_take, List.length_take, length_buildAll]

theorem drain_pairwise (cfg : Config) (idx : Index) (table : FreqTable) :
    List.Pairwise (fun a b => tsLe b a) (drain (createQueue cfg idx table)) := by
  have hs := sorted_createQueue cfg idx table
  rw [drain, List.pairwise_reverse]
  exact hs

/-- **C2.** When boosting is enabled, the queue's entries all have
positive score and the boost factor is positive, the clauses built by
`createQuery` are exactly the drained entries (up to the external clause
cap) weighted by `boostFactor * score / bestScore`, where `bestScore` is
the score of the first drained entry; every built clause weight `w`
satisfies `0 < w ≤ boostFactor`, and the first clause (built for the
highest-scored term) has weight exactly `boostFactor`. -/
theorem C2_boost_weights (cfg : Config) (idx : Index) (table : FreqTable)
    (cap : Nat) (best : TermScore)
    (hb : cfg.hasBoost = true) (hbf : 0 < cfg.boostFactor)
    (hpos : ∀ st ∈ createQueue cfg idx table, 0 < st.score)
    (hhead : (drain (createQueue cfg idx table)).head? = some best) :
    createQuery cfg cap (createQueue cfg idx table) =
      ((drain (createQueue cfg idx table)).take cap).map
        (fun st => ⟨st.term, cfg.boostFactor * st.score / best.score⟩) ∧
    (∀ c ∈ createQuery cfg cap (createQueue cfg idx table),
      0 < c.boost ∧ c.boost ≤ cfg.boostFactor) ∧
    (0 < cap → (createQuery cfg cap (createQueue cfg idx table)).head? =
      some ⟨best.term, cfg.boostFactor⟩) := by
  rcases hd : drain (createQueue cfg idx table) with _ | ⟨best', tail⟩
  · rw [hd] at hhead
    simp at hhead
  rw [hd] at hhead
  have hbest : best' = best := by
    simpa using hhead
  rw [hbest] at hd
  have hmem_best : best ∈ createQueue cfg idx table := by
    have : best ∈ drain (createQueue cfg idx table) := by
      rw [hd]
      exact List.mem_cons_self _ _
    rw [drain, List.mem_reverse] at this
    exact this
  have hbest_pos : 0 < best.score := hpos best hmem_best
  have hbest_ne : best.score ≠ -1 := by
    intro h
    rw [h] at hbest_pos
    norm_num at hbest_pos
  have htail_le : ∀ st ∈ tail, st.score ≤ best.score := by
    have hp := drain_pairwise cfg idx table
    rw [hd, List.pairwise_cons] at hp
    intro st hst
    rcases (tsLe_iff st best).mp (hp.1 st hst) with h | ⟨h, _⟩
    · exact le_of_lt h
    · exact le_of_eq h
  have hbuild : buildAll cfg (best :: tail) (-1) =
      (best :: tail).map
        (fun st => ⟨st.term, cfg.boostFactor * st.score / best.score⟩) := by
    simp only [buildAll, hb, and_true, true_and, if_true]
    rw [buildAll_of_ne cfg hb tail best.score hbest_ne, List.map_cons]
  have hq : createQuery cfg cap (createQueue cfg idx table) =
      ((best :: tail).take cap).map
        (fun st => ⟨st.term, cfg.boostFactor * st.score / best.score⟩) := by
    rw [createQuery_eq_take, hd, hbuild, List.map_take]
  refine ⟨by rw [hq, hbest], ?_, ?_⟩
  · intro c hc
    rw [hq] at hc
    rcases List.mem_map.mp hc with ⟨st, hst, hc'⟩
    have hst' : st ∈ best :: tail := List.take_subset _ _ hst
    have hst_pos : 0 < st.score := by
      apply hpos
      have : st ∈ drain (createQueue cfg idx table) := by
        rw [hd]
        exact hst'
      rw [drain, List.mem_reverse] at this
      exact this
    have hst_le : st.score ≤ best.score := by
      rcases List.mem_cons.mp hst' with h | h
      · rw [h]
      · exact htail_le st h
    rw [← hc']
    constructor
    · exact div_pos (mul_pos hbf hst_pos) hbest_pos
    · rw [div_le_iff hbest_pos]
      calc cfg.boostFactor * st.score ≤ cfg.boostFactor * best.score :=
            mul_le_mul_of_nonneg_left hst_le (le_of_lt hbf)
        _ = cfg.boostFactor * best.score := rfl
  · intro hcap
    rcases Nat.exists_eq_succ_of_ne_zero (Nat.pos_iff_ne_zero.mp hcap) with ⟨n, hn⟩
    rw [hq, hn, List.take_succ_cons, List.map_cons, List.head?_cons]
    congr 2
    rw [mul_div_assoc, div_self (ne_of_gt hbest_pos), mul_one]

theorem getTermsCount_aux :
    ∀ (table : FreqTable) (acc : Int),
      table.foldl (fun acc p => acc + (p.2.length : Int)) acc =
        acc + ((tablePairs table).length : Int)
  | [], acc => by simp [tablePairs]
  | p :: rest, acc => by
    rw [List.foldl_cons, getTermsCount_aux rest]
    simp only [tablePairs, List.flatMap_cons, List.length_append, List.length_map]
    push_cast
    ring

theorem getTermsCount_eq (table : FreqTable) :
    getTermsCount table = ((tablePairs table).length : Int) := by
  rw [getTermsCount, getTermsCount_aux]
  simp

theorem tablePairs_nodup {table : FreqTable} (hwf : tableWF table) :
    (tablePairs table).Nodup := by
  rcases hwf with ⟨houter, hinner⟩
  rw [tablePairs, List.nodup_flatMap]
  constructor
  · intro p hp
    refine List.Nodup.map_on ?_ (List.Nodup.of_map Prod.fst (hinner p hp))
    intro x hx y hy hxy
    have h1 : x.1 = y.1 := by
      simpa using congrArg Prod.snd hxy
    exact List.inj_on_of_nodup_map (hinner p hp) hx hy h1
  · have hp : table.Pairwise (fun a b => a.1 ≠ b.1) :=
      List.pairwise_map.mp houter
    refine hp.imp ?_
    intro a b hne x hxa hxb
    rcases List.mem_map.mp hxa with ⟨qa, _, hqa⟩
    rcases List.mem_map.mp hxb with ⟨qb, _, hqb⟩
    have h2 := hqa.trans hqb.symm
    injection h2 with h3 _
    exact hne h3

/-- **C4.** After processing the whole table, the Top-K Set holds at most
`min(maxQueryTerms, distinctTermCount)` entries, where under the hash-map
well-formedness of the table `getTermsCount` is exactly the number of
distinct `(field, term)` pairs; and a candidate rejected at the eviction
comparison (its score not above the current minimum entry's) is not
strictly greater than every retained entry: some retained entry has at
least its score. -/
theorem C4_capacity_and_rejection (cfg : Config) (idx : Index)
    (table : FreqTable) (hmqt : 0 ≤ cfg.maxQueryTerms) (hwf : tableWF table) :
    ((createQueue cfg idx table).length : Int) ≤
      min cfg.maxQueryTerms (getTermsCount table) ∧
    getTermsCount table = ((tablePairs table).length : Int) ∧
    (tablePairs table).Nodup ∧
    (∀ (fld w : String) (tf : Int) (top : TermScore) (rest : List TermScore),
      ¬ top.score < (tf : ℚ) * idx.idf (idx.docFreq ⟨fld, w⟩) idx.numDocs →
      ∃ st ∈ top :: rest,
        (tf : ℚ) * idx.idf (idx.docFreq ⟨fld, w⟩) idx.numDocs ≤ st.score) := by
  refine ⟨?_, getTermsCount_eq table, tablePairs_nodup hwf, ?_⟩
  · have h1 := length_createQueue cfg idx table
    have h2 : (0 : Int) ≤ getTermsCount table := by
      rw [getTermsCount_eq]
      positivity
    omega
  · intro fld w tf top rest hrej
    exact ⟨top, List.mem_cons_self _ _, not_lt.mp hrej⟩

/-- **C3 (counterexample).** The eviction comparison does not apply the
field+text tie-break: with capacity 1 and two candidates of equal score,
the retained entry is whichever was inserted first, so the retained set
is not determined by the total order on term identity.  Inserting
`("f","b")` then `("f","a")` retains `("f","b")`; inserting them in the
opposite order retains `("f","a")`. -/
theorem C3_tie_break_counterexample :
    createQueue cfg3c idxW tableBA = [⟨⟨"f", "b"⟩, 1⟩] ∧
    createQueue cfg3c idxW tableAB = [⟨⟨"f", "a"⟩, 1⟩] ∧
    (⟨⟨"f", "b"⟩, 1⟩ : TermScore) ≠ ⟨⟨"f", "a"⟩, 1⟩ := by
  refine ⟨?_, ?_, by simp⟩
  · norm_num [createQueue, processTable, processWords, processCandidate,
      getTermsCount, pqInsert, cfg3c, cfg3w, defaultConfig, idxW, tableBA,
      tsLe, TermScore.compareTo, Term.compareTo, cmpStr, cmpChars]
  · norm_num [createQueue, processTable, processWords, processCandidate,
      getTermsCount, pqInsert, cfg3c, cfg3w, defaultConfig, idxW, tableAB,
      tsLe, TermScore.compareTo, Term.compareTo, cmpStr, cmpChars]

/-- **C3 (amended).** After any sequence of insertions the selector's
structure is sorted and bounded (C1, C4); at capacity the in-place
eviction comparison uses scores only: a candidate whose score is less
than or equal to the current minimum entry's score is discarded — equal
scores keep the incumbent regardless of term identity — and a candidate
with strictly greater score replaces the minimum entry.  The field+text
tie-break affects only the internal ordering of the structure, not the
eviction comparison. -/
theorem C3_eviction_score_only (cfg : Config) (idx : Index) (limit : Int)
    (fld w : String) (tf : Int) (top : TermScore) (rest : List TermScore)
    (hcap : ¬ (((top :: rest).length : Int) < limit))
    (h1 : ¬ (cfg.minTermFreq > 0 ∧ tf < cfg.minTermFreq))
    (h2 : ¬ (cfg.minDocFreq > 0 ∧ idx.docFreq ⟨fld, w⟩ < cfg.minDocFreq))
    (h3 : ¬ idx.docFreq ⟨fld, w⟩ > cfg.maxDocFreq)
    (h4 : idx.docFreq ⟨fld, w⟩ ≠ 0) :
    ((tf : ℚ) * idx.idf (idx.docFreq ⟨fld, w⟩) idx.numDocs ≤ top.score →
      processCandidate cfg idx limit (top :: rest) fld w tf = top :: rest) ∧
    (top.score < (tf : ℚ) * idx.idf (idx.docFreq ⟨fld, w⟩) idx.numDocs →
      processCandidate cfg idx limit (top :: rest) fld w tf =
        pqInsert ⟨⟨fld, w⟩,
          (tf : ℚ) * idx.idf (idx.docFreq ⟨fld, w⟩) idx.numDocs⟩ rest) := by
  constructor
  · intro hle
    simp only [processCandidate]
    rw [if_neg h1, if_neg h2, if_neg h3, if_neg h4, if_neg hcap,
      if_neg (not_lt.mpr hle)]
  · intro hlt
    simp only [processCandidate]
    rw [if_neg h1, if_neg h2, if_neg h3, if_neg h4, if_neg hcap, if_pos hlt]

/-- **C5.** Every entry of the Top-K Set arises from a `(field, word,
tf)` triple of the table that passed all four threshold filters —
`tf ≥ minTermFreq` (when `minTermFreq > 0`), `docFreq ≥ minDocFreq` (when
`minDocFreq > 0`), `docFreq ≤ maxDocFreq` and `docFreq ≠ 0` — and its
score is exactly `tf * idf(docFreq, numDocs)`; filtered-out candidates
are skipped silently (the selector is a total function, so the call never
aborts). -/
theorem C5_threshold_filters (cfg : Config) (idx : Index) (table : FreqTable) :
    ∀ st ∈ createQueue cfg idx table, candidateOK cfg idx table st :=
  createQueue_mem_candidateOK cfg idx table

/-! ### The token loop and its parsing budget -/

theorem tokenLoop_eq_take (cfg : Config) :
    ∀ (toks : List String) (c : Int) (m : TermFreqMap),
      tokenLoop cfg toks c m =
        (toks.take (cfg.maxNumTokensParsed - c).toNat).foldl
          (fun mm t => if isNoiseWord cfg t then mm else bumpTerm mm t) m
  | [], c, m => by simp [tokenLoop]
  | tok :: rest, c, m => by
    simp only [tokenLoop]
    by_cases h : c + 1 > cfg.maxNumTokensParsed
    · rw [if_pos h]
      have h0 : (cfg.maxNumTokensParsed - c).toNat = 0 := by omega
      rw [h0, List.take_zero, List.foldl_nil]
    · rw [if_neg h]
      have h1 : (cfg.maxNumTokensParsed - c).toNat =
          (cfg.maxNumTokensParsed - (c + 1)).toNat + 1 := by omega
      rw [h1, List.take_succ_cons, List.foldl_cons]
      by_cases hn : isNoiseWord cfg tok = true
      · rw [if_pos hn, if_pos hn, tokenLoop_eq_take cfg rest (c + 1) m]
      · rw [if_neg hn, if_neg hn,
          tokenLoop_eq_take cfg rest (c + 1) (bumpTerm m tok)]

theorem tokenLoop_analyzer_irrelevant (cfg : Config)
    (x : Option (String → String → List String)) :
    ∀ (toks : List String) (c : Int) (m : TermFreqMap),
      tokenLoop { cfg with analyzer := x } toks c m = tokenLoop cfg toks c m
  | [], _, _ => rfl
  | tok :: rest, c, m => by
    have hn : isNoiseWord { cfg with analyzer := x } tok = isNoiseWord cfg tok :=
      rfl
    simp only [tokenLoop]
    dsimp only
    rw [hn]
    by_cases h : c + 1 > cfg.maxNumTokensParsed
    · rw [if_pos h, if_pos h]
    · rw [if_neg h, if_neg h]
      by_cases hw : isNoiseWord cfg tok = true
      · rw [if_pos hw, if_pos hw,
          tokenLoop_analyzer_irrelevant cfg x rest (c + 1) m]
      · rw [if_neg hw, if_neg hw,
          tokenLoop_analyzer_irrelevant cfg x rest (c + 1) (bumpTerm m tok)]

/-- **C10.** Every token produced by the analyzer counts toward the
`maxNumTokensParsed` budget — the counter is incremented before the noise
check, so noise-rejected tokens consume budget too: the loop is exactly a
fold over the first `maxNumTokensParsed` tokens of the source, and per
text source the number of counted tokens plus the number rejected as
noise never exceeds `maxNumTokensParsed`. -/
theorem C10_noise_counts_against_budget (cfg : Config) (toks : List String)
    (m : TermFreqMap) :
    tokenLoop cfg toks 0 m =
      (toks.take cfg.maxNumTokensParsed.toNat).foldl
        (fun mm t => if isNoiseWord cfg t then mm else bumpTerm mm t) m ∧
    ((toks.take cfg.maxNumTokensParsed.toNat).filter
        (fun t => !isNoiseWord cfg t)).length +
      ((toks.take cfg.maxNumTokensParsed.toNat).filter
        (isNoiseWord cfg)).length ≤ cfg.maxNumTokensParsed.toNat := by
  constructor
  · have h := tokenLoop_eq_take cfg toks 0 m
    rw [Int.sub_zero] at h
    exact h
  · have h := List.length_eq_length_filter_add
      (l := toks.take cfg.maxNumTokensParsed.toNat) (isNoiseWord cfg)
    have h2 := List.length_take_le cfg.maxNumTokensParsed.toNat toks
    omega

/-- **C6 (counterexample).** The `maxNumTokensParsed` budget is not
applied per field: the counter is local to each accumulation call, so a
field fed from two text sources receives tokens from both.  With a
one-token budget and an analyzer producing two `a` tokens per source,
accumulating two sources for field `f` records a total term frequency of
`2 > 1 = maxNumTokensParsed` for that field. -/
theorem C6_per_field_budget_counterexample :
    retrieveTermsText cfg6w "f" ["s1", "s2"] = .ok [("f", [("a", 2)])] ∧
    cfg6w.maxNumTokensParsed = 1 ∧
    ¬ sumTf [("a", 2)] ≤ cfg6w.maxNumTokensParsed :=
  ⟨rfl, rfl, by decide⟩

/-- **C6 (amended).** The token budget is per text source, not per field:
one token-mode accumulation call processes at most the first
`maxNumTokensParsed` tokens of that source's stream — truncating the
analyzer's stream for the source at `maxNumTokensParsed` tokens does not
change the result — while a field accumulated from several stored values
or streams may receive up to `maxNumTokensParsed` tokens from each
source. -/
theorem C6_per_source_budget (cfg : Config)
    (a : String → String → List String) (ha : cfg.analyzer = some a)
    (text : String) (table : FreqTable) (fieldName : String) :
    addTermFrequenciesText cfg text table fieldName =
      addTermFrequenciesText
        { cfg with analyzer := some (fun fl tx =>
            (a fl tx).take cfg.maxNumTokensParsed.toNat) }
        text table fieldName := by
  simp only [addTermFrequenciesText, ha]
  refine congrArg Except.ok (List.map_congr_left ?_)
  intro p _
  by_cases hp : p.1 = fieldName
  · rw [if_pos hp, if_pos hp,
      tokenLoop_analyzer_irrelevant cfg
        (some (fun fl tx => (a fl tx).take cfg.maxNumTokensParsed.toNat))
        ((a fieldName text).take cfg.maxNumTokensParsed.toNat) 0 p.2,
      tokenLoop_eq_take cfg (a fieldName text) 0 p.2,
      tokenLoop_eq_take cfg ((a fieldName text).take
        cfg.maxNumTokensParsed.toNat) 0 p.2,
      Int.sub_zero, List.take_take, min_self]
  · rw [if_neg hp, if_neg hp]

/-- **C7.** Token-mode accumulation raises the configuration error (the
`UnsupportedOperationException` carrying the analyzer-required message)
exactly when no analyzer is configured; the check precedes any table
update, and this is the only error the accumulator can surface. -/
theorem C7_analyzer_required (cfg : Config) (text : String)
    (table : FreqTable) (fieldName : String) :
    (cfg.analyzer = none →
      addTermFrequenciesText cfg text table fieldName =
        .error (.unsupportedOperation analyzerRequiredMsg)) ∧
    (∀ e, addTermFrequenciesText cfg text table fieldName = .error e →
      cfg.analyzer = none ∧ e = .unsupportedOperation analyzerRequiredMsg) := by
  constructor
  · intro h
    simp only [addTermFrequenciesText, h]
  · intro e he
    rcases hA : cfg.analyzer with _ | a
    · simp only [addTermFrequenciesText, hA] at he
      exact ⟨rfl, ((Except.error.injEq _ _).mp he).symm⟩
    · simp only [addTermFrequenciesText, hA] at he
      exact Except.noConfusion he

/-- **C9 (counterexample).** `like(docNum)` invoked with an empty
configured field-name set does mutate the shared configuration: the
member `fieldNames` is assigned the resolved field set (the stored value
changes from `[]` to the corpus field list). -/
theorem C9_mutation_counterexample :
    (likeResolveFields defaultConfig ["body"]).fieldNames ≠
      defaultConfig.fieldNames := by
  simp [likeResolveFields, defaultConfig]

/-- **C9 (amended).** The field-resolution step of `like(docNum)` mutates
exactly the stored `fieldNames`, and only when it is empty: with a
non-empty configured field set the configuration is returned unchanged,
with an empty one the stored `fieldNames` becomes the resolved corpus
field set while every other configuration field is unchanged. -/
theorem C9_field_resolution (cfg : Config) (flds : List String) :
    (cfg.fieldNames ≠ [] → likeResolveFields cfg flds = cfg) ∧
    (cfg.fieldNames = [] → (likeResolveFields cfg flds).fieldNames = flds) ∧
    (likeResolveFields cfg flds).stopWords = cfg.stopWords ∧
    (likeResolveFields cfg flds).analyzer = cfg.analyzer ∧
    (likeResolveFields cfg flds).minTermFreq = cfg.minTermFreq ∧
    (likeResolveFields cfg flds).minDocFreq = cfg.minDocFreq ∧
    (likeResolveFields cfg flds).maxDocFreq = cfg.maxDocFreq ∧
    (likeResolveFields cfg flds).hasBoost = cfg.hasBoost ∧
    (likeResolveFields cfg flds).maxNumTokensParsed = cfg.maxNumTokensParsed ∧
    (likeResolveFields cfg flds).minWordLen = cfg.minWordLen ∧
    (likeResolveFields cfg flds).maxWordLen = cfg.maxWordLen ∧
    (likeResolveFields cfg flds).maxQueryTerms = cfg.maxQueryTerms ∧
    (likeResolveFields cfg flds).boostFactor = cfg.boostFactor := by
  unfold likeResolveFields
  by_cases h : cfg.fieldNames.isEmpty
  · rw [if_pos h]
    exact ⟨fun hne => absurd (List.isEmpty_iff.mp h) hne, fun _ => rfl,
      rfl, rfl, rfl, rfl, rfl, rfl, rfl, rfl, rfl, rfl, rfl⟩
  · rw [if_neg h]
    exact ⟨fun _ => rfl,
      fun he => absurd (List.isEmpty_iff.mpr he) h,
      rfl, rfl, rfl, rfl, rfl, rfl, rfl, rfl, rfl, rfl, rfl⟩

/-! ### Concrete witnesses discharging the hypotheses of the theorems -/

/-- C2 exercised on a two-term table with boosting enabled. -/
theorem C2_boost_weights_witness :
    createQuery cfg2w 5 (createQueue cfg2w idxW table2w) =
      ((drain (createQueue cfg2w idxW table2w)).take 5).map
        (fun st => ⟨st.term,
          cfg2w.boostFactor * st.score / (⟨⟨"f", "a"⟩, 2⟩ : TermScore).score⟩) := by
  have hq : createQueue cfg2w idxW table2w =
      [⟨⟨"f", "b"⟩, 1⟩, ⟨⟨"f", "a"⟩, 2⟩] := by
    norm_num [createQueue, processTable, processWords, processCandidate,
      getTermsCount, pqInsert, cfg2w, defaultConfig, idxW, table2w,
      tsLe, TermScore.compareTo, Term.compareTo, cmpStr, cmpChars]
  refine (C2_boost_weights cfg2w idxW table2w 5 ⟨⟨"f", "a"⟩, 2⟩ rfl ?_ ?_ ?_).1
  · norm_num [cfg2w, defaultConfig]
  · rw [hq]
    intro st hst
    rcases List.mem_cons.mp hst with h | h
    · rw [h]
      norm_num
    · rcases List.mem_cons.mp h with h2 | h2
      · rw [h2]
        norm_num
      · simp at h2
  · rw [hq]
    rfl

/-- C3 (amended) exercised at capacity on an equal-score candidate. -/
theorem C3_eviction_score_only_witness :
    processCandidate cfg3w idxW 1 [⟨⟨"f", "b"⟩, 1⟩] "f" "a" 1 =
      [⟨⟨"f", "b"⟩, 1⟩] :=
  (C3_eviction_score_only cfg3w idxW 1 "f" "a" 1 ⟨⟨"f", "b"⟩, 1⟩ []
    (by norm_num) (by decide) (by decide) (by decide) (by decide)).1
    (by norm_num [idxW])

/-- C4 exercised on a well-formed two-term table with capacity 1. -/
theorem C4_capacity_and_rejection_witness :
    ((createQueue cfg3c idxW tableBA).length : Int) ≤
      min cfg3c.maxQueryTerms (getTermsCount tableBA) :=
  (C4_capacity_and_rejection cfg3c idxW tableBA (by decide)
    (by unfold tableWF ; decide)).1

/-- C5 exercised on the retained entry of a capacity-1 run. -/
theorem C5_threshold_filters_witness :
    candidateOK cfg3c idxW tableBA ⟨⟨"f", "b"⟩, 1⟩ := by
  apply C5_threshold_filters cfg3c idxW tableBA
  have hq : createQueue cfg3c idxW tableBA = [⟨⟨"f", "b"⟩, 1⟩] := by
    norm_num [createQueue, processTable, processWords, processCandidate,
      getTermsCount, pqInsert, cfg3c, cfg3w, defaultConfig, idxW, tableBA,
      tsLe, TermScore.compareTo, Term.compareTo, cmpStr, cmpChars]
  rw [hq]
  exact List.mem_cons_self _ _

/-- C6 (amended) exercised on the two-token analyzer with budget 1. -/
theorem C6_per_source_budget_witness :
    addTermFrequenciesText cfg6w "s1" [] "f" =
      addTermFrequenciesText
        { cfg6w with analyzer := some (fun fl tx =>
            ((fun (_ _ : String) => ["a", "a"]) fl tx).take
              cfg6w.maxNumTokensParsed.toNat) }
        "s1" [] "f" :=
  C6_per_source_budget cfg6w (fun _ _ => ["a", "a"]) rfl "s1" [] "f"

/-- C7 exercised on the analyzer-free default configuration. -/
theorem C7_analyzer_required_witness :
    addTermFrequenciesText defaultConfig "s1" [] "f" =
      .error (.unsupportedOperation analyzerRequiredMsg) :=
  (C7_analyzer_required defaultConfig "s1" [] "f").1 rfl

/-- C9 (amended) exercised on a configuration with a non-empty field set. -/
theorem C9_field_resolution_witness :
    likeResolveFields cfg9w ["body"] = cfg9w :=
  (C9_field_resolution cfg9w ["body"]).1 (by decide)

end Mlt
